import Mathlib

/-!
Verification development for the YouTube transcript analysis server
(source file src/server.ts).  The server logic is shallowly embedded:
strings are lists of characters, the JavaScript regular-expression
scans are implemented as explicit recursive scanners with the same
matching semantics, and the external platform facilities (HTTP fetch,
JSON.parse, the hosted model) are modelled as function-valued
parameters of an environment record.
-/

namespace YT2

/-- Boolean test that the second character list begins with the first
(the pattern).  Used to model anchored literal regex matching. -/
def lstartsWith : List Char → List Char → Bool
  | [], _ => true
  | _ :: _, [] => false
  | p :: ps, c :: cs => p == c && lstartsWith ps cs

/-- Boolean substring test, modelling the JavaScript method
String.includes as well as occurrence of a literal regex pattern. -/
def containsSub (pat : List Char) : List Char → Bool
  | [] => pat.isEmpty
  | c :: rest => lstartsWith pat (c :: rest) || containsSub pat rest

/-- Split a list at the first occurrence of a literal pattern:
returns the part strictly before the occurrence and the part strictly
after it.  Models leftmost literal regex search. -/
def splitFirst (pat : List Char) : List Char → Option (List Char × List Char)
  | [] => if pat.isEmpty then some ([], []) else none
  | c :: rest =>
    if lstartsWith pat (c :: rest) then
      some ([], List.drop pat.length (c :: rest))
    else
      match splitFirst pat rest with
      | some (pre, post) => some (c :: pre, post)
      | none => none

/-- Fuel-indexed worker for global literal replacement (the fuel is
an upper bound on the input length, consumed one unit per character
or per match). -/
def replaceAllAux (pat rep : List Char) : Nat → List Char → List Char
  | _, [] => []
  | 0, s => s
  | fuel + 1, c :: rest =>
    if pat.isEmpty then c :: rest
    else if lstartsWith pat (c :: rest) then
      rep ++ replaceAllAux pat rep fuel (List.drop (pat.length - 1) rest)
    else
      c :: replaceAllAux pat rep fuel rest

/-- Global, leftmost, non-overlapping replacement of a literal
pattern, modelling the JavaScript call s.replace(pattern-regex-with-g,
replacement). -/
def replaceAll (pat rep s : List Char) : List Char :=
  replaceAllAux pat rep s.length s

/-- Replacement of only the first occurrence of a literal pattern,
modelling the JavaScript call s.replace(stringPattern, replacement).
With an empty pattern the replacement is inserted at the front, as in
JavaScript. -/
def replaceFirst (pat rep s : List Char) : List Char :=
  match splitFirst pat s with
  | some (pre, post) => pre ++ rep ++ post
  | none => s

/-- Join a list of character lists with a single separator character,
modelling the JavaScript call parts.join(sep). -/
def joinSep (sep : Char) : List (List Char) → List Char
  | [] => []
  | [s] => s
  | s :: t :: rest => s ++ sep :: joinSep sep (t :: rest)

/-- Characters treated as whitespace (the common ASCII subset of the
JavaScript whitespace class). -/
def jsSpace (c : Char) : Bool :=
  c == ' ' || c == '\t' || c == '\n' || c == '\r' || c == '\x0b' || c == '\x0c'

/-- Negation of the whitespace class, for the regex class excluding
whitespace. -/
def nonSpace (c : Char) : Bool := !jsSpace c

/-- Strip leading and trailing whitespace, modelling the JavaScript
method String.trim. -/
def trimJs (s : List Char) : List Char :=
  ((s.dropWhile jsSpace).reverse.dropWhile jsSpace).reverse

/-! Transcript parser (server.ts lines 74-88).  The caption document
is scanned with the regex matching text elements: an opening tag
consisting of the five characters of the element name, any run of
characters other than the closing angle bracket, that bracket, then a
lazily matched body up to the first closing tag. -/

/-- The literal opening-tag pattern of the text-element regex. -/
def openPat : List Char := "<text".toList

/-- The literal closing-tag pattern of the text-element regex. -/
def closePat : List Char := "</text>".toList

/-- One step of the global text-element regex: find the next match in
the input and return its captured body together with the remainder of
the input after the match, or nothing when no further match exists. -/
def findNext (s : List Char) : Option (List Char × List Char) :=
  match splitFirst openPat s with
  | none => none
  | some (_, afterOpen) =>
    match afterOpen.dropWhile (fun c => !(c == '>')) with
    | c :: rest =>
      if c == '>' then
        match splitFirst closePat rest with
        | some (content, rest2) => some (content, rest2)
        | none => none
      else none
    | [] => none

/-- Fuel-indexed iteration of the text-element regex (matchAll). -/
def extractAux : Nat → List Char → List (List Char)
  | 0, _ => []
  | fuel + 1, s =>
    match findNext s with
    | none => []
    | some (content, rest) => content :: extractAux fuel rest

/-- All captured text-element bodies of a caption document, in order. -/
def extractTexts (s : List Char) : List (List Char) :=
  extractAux s.length s

/-- Literal pattern of the ampersand entity escape. -/
def ampPat : List Char := "&amp;".toList

/-- Literal pattern of the less-than entity escape. -/
def ltPat : List Char := "&lt;".toList

/-- Literal pattern of the greater-than entity escape. -/
def gtPat : List Char := "&gt;".toList

/-- Literal pattern of the double-quote entity escape. -/
def quotPat : List Char := "&quot;".toList

/-- Literal pattern of the numeric apostrophe entity escape. -/
def aposPat : List Char := ['&', '#', '3', '9', ';']

/-- Replacement for the numeric apostrophe entity escape: the single
apostrophe character. -/
def aposRep : List Char := [Char.ofNat 39]

/-- Entity decoding and newline collapsing of one caption segment,
with the replacements applied globally in the source order: ampersand
first, then the angle brackets, the quote, the apostrophe, and
finally newlines to spaces. -/
def decodeSegment (s : List Char) : List Char :=
  replaceAll ['\n'] [' ']
    (replaceAll aposPat aposRep
      (replaceAll quotPat ['"']
        (replaceAll gtPat ['>']
          (replaceAll ltPat ['<']
            (replaceAll ampPat ['&'] s)))))

/-- Full transcript parser: extract every text-element body, decode
each, and join them with single spaces. -/
def parseTranscript (xml : List Char) : List Char :=
  joinSep ' ' ((extractTexts xml).map decodeSegment)

/-- Caption document built from a list of attribute/body pairs, one
text element per pair, elements adjacent, followed by a trailing
footer.  Used to state parser properties over whole families of
well-formed caption documents. -/
def mkDoc (footer : List Char) : List (List Char × List Char) → List Char
  | [] => footer
  | (attr, seg) :: rest =>
    openPat ++ (attr ++ ('>' :: (seg ++ (closePat ++ mkDoc footer rest))))

/-! Video id resolver (server.ts lines 24-33).  The single pattern is
an alternation of three literal prefixes followed by a nonempty
greedy run of characters other than ampersand, newline, question mark
and hash, captured as the id. -/

/-- Literal watch-URL prefix of the id regex. -/
def watchPat : List Char := "youtube.com/watch?v=".toList

/-- Literal short-link prefix of the id regex. -/
def shortPat : List Char := "youtu.be/".toList

/-- Literal embed-URL prefix of the id regex. -/
def embedPat : List Char := "youtube.com/embed/".toList

/-- Characters admissible inside a captured video id. -/
def idChar (c : Char) : Bool :=
  !(c == '&' || c == '\n' || c == '?' || c == '#')

/-- Try the three URL-shape alternatives at the current position, in
the source order, returning the remainder after the matched prefix. -/
def tryShapeAt (s : List Char) : Option (List Char) :=
  if lstartsWith watchPat s then some (List.drop watchPat.length s)
  else if lstartsWith shortPat s then some (List.drop shortPat.length s)
  else if lstartsWith embedPat s then some (List.drop embedPat.length s)
  else none

/-- Try to capture a video id at the current position: a shape prefix
must match and be followed by a nonempty run of id characters. -/
def tryIdAt (s : List Char) : Option (List Char) :=
  match tryShapeAt s with
  | some rest =>
    let cap := rest.takeWhile idChar
    if cap.isEmpty then none else some cap
  | none => none

/-- The id resolver: scan left to right for the first position where
the id pattern matches and return the captured id. -/
def getVideoIdL : List Char → Option (List Char)
  | [] => none
  | c :: rest =>
    match tryIdAt (c :: rest) with
    | some cap => some cap
    | none => getVideoIdL rest

/-! URL extraction from the free-form input (server.ts line 105): the
first substring consisting of a scheme, the colon-slash-slash
delimiter, and a nonempty greedy run of non-whitespace characters. -/

/-- Literal secure-scheme prefix of the URL regex. -/
def httpsPat : List Char := "https://".toList

/-- Literal plain-scheme prefix of the URL regex. -/
def httpPat : List Char := "http://".toList

/-- Try to match a URL at the current position (the optional scheme
letter is tried greedily first, as the regex engine does). -/
def urlAt (s : List Char) : Option (List Char) :=
  if lstartsWith httpsPat s then
    let run := (List.drop httpsPat.length s).takeWhile nonSpace
    if run.isEmpty then none else some (httpsPat ++ run)
  else if lstartsWith httpPat s then
    let run := (List.drop httpPat.length s).takeWhile nonSpace
    if run.isEmpty then none else some (httpPat ++ run)
  else none

/-- Scan for the first URL substring of the input. -/
def urlMatchL : List Char → Option (List Char)
  | [] => none
  | c :: rest =>
    match urlAt (c :: rest) with
    | some u => some u
    | none => urlMatchL rest

/-! Caption track listing (server.ts line 50): the page source is
scanned for the quoted captionTracks key followed by optional
whitespace and a bracketed array; the bracketed part is captured
lazily and may not span a line break because the dot of that regex
does not match line terminators. -/

/-- Literal key pattern of the caption-track regex, including the
quotes and the colon. -/
def ctPat : List Char := "\"captionTracks\":".toList

/-- Characters the lazily matching dot may consume: anything except
line terminators. -/
def notNl (c : Char) : Bool := !(c == '\n' || c == '\r')

/-- Scan the inside of the bracketed array: the characters up to the
first closing bracket, failing if a line terminator intervenes. -/
def bracketScan (s : List Char) : Option (List Char) :=
  let inner := s.takeWhile (fun c => notNl c && !(c == ']'))
  match List.drop inner.length s with
  | ']' :: _ => some inner
  | _ => none

/-- Fuel-indexed scan for the caption-track listing: at each
occurrence of the key pattern, skip whitespace and require an
opening bracket and a same-line closing bracket; on failure resume
after that occurrence, as the regex engine does. -/
def fcjAux : Nat → List Char → Option (List Char)
  | 0, _ => none
  | fuel + 1, s =>
    match splitFirst ctPat s with
    | none => none
    | some (_, rest) =>
      match rest.dropWhile jsSpace with
      | '[' :: rest3 =>
        match bracketScan rest3 with
        | some inner => some ('[' :: (inner ++ [']']))
        | none => fcjAux fuel rest
      | _ => fcjAux fuel rest

/-- The captured bracketed caption-track listing of a page document,
brackets included, or nothing when the page has none. -/
def findCaptionsJson (s : List Char) : Option (List Char) :=
  fcjAux s.length s

/-! Data model and environment. -/

/-- One caption track as read from the page listing. -/
structure CaptionTrack where
  baseUrl : String
  languageCode : String
  vssId : Option String
deriving DecidableEq

/-- English preference test of the selection loop: the language code
equals the English code, or the optional internal identifier contains
the English code as a substring. -/
def isEnglish (t : CaptionTrack) : Bool :=
  t.languageCode == "en" ||
    (match t.vssId with
     | some v => containsSub "en".toList v.toList
     | none => false)

/-- Track selection (server.ts lines 60-67): the fetch URL of the
first English-marked track, or of the first track when none is
English-marked. -/
def selectUrl (t : CaptionTrack) (ts : List CaptionTrack) : String :=
  (((t :: ts).find? isEnglish).getD t).baseUrl

/-- An HTTP response as seen by the server: a status code and a body. -/
structure HttpResponse where
  status : Nat
  body : String
deriving DecidableEq

/-- Success flag of a response, as the fetch API defines it. -/
def HttpResponse.ok (r : HttpResponse) : Bool :=
  200 ≤ r.status && r.status ≤ 299

/-- Outcome of one outbound fetch: either a transport failure or a
response (of any status). -/
inductive FetchResult where
  | networkError : FetchResult
  | success : HttpResponse → FetchResult
deriving DecidableEq

/-- One typed content segment of the structured model response. -/
structure Block where
  type : String
  text : String
deriving DecidableEq

/-- Parsed body of the embed-metadata endpoint; absent fields are
represented by the none value. -/
structure Oembed where
  title : Option String
  thumbnail_url : Option String
deriving DecidableEq

/-- The external world of one request: the network, the JSON parser
applied to the caption listing and to the metadata body, and the
hosted model.  All four are platform facilities, not code of this
repository, so they are parameters of the model. -/
structure Env where
  net : String → FetchResult
  jtracks : String → Option (List CaptionTrack)
  joembed : String → Option Oembed
  llm : String → Except String (List Block)

/-- One observable outbound call of a request. -/
inductive Call where
  | http : String → Call
  | inference : Call
deriving DecidableEq

/-- Watch-page URL of a video id. -/
def watchUrlOf (id : String) : String :=
  "https://www.youtube.com/watch?v=" ++ id

/-- Embed-metadata URL of a video id. -/
def oembedUrlOf (id : String) : String :=
  "https://www.youtube.com/oembed?url=https://www.youtube.com/watch?v=" ++ id ++ "&format=json"

/-- Detail string modelling the transport-failure exception of the
fetch API. -/
def netErrMsg : String := "network error"

/-- The caption-failure message of the analyze endpoint. -/
def transcriptErrMsg : String :=
  "Could not get transcript. The video may not have captions, or they may be disabled."

/-- The transcript retrieval stage (server.ts lines 36-93): fetch the
watch page, locate and parse the caption-track listing, select a
track, fetch its caption document and parse it.  Returns the
transcript or the failure detail, together with the list of outbound
calls made.  The caption response is used through its body alone; its
status is never consulted. -/
def fetchTranscriptM (env : Env) (videoId : String) : Except String (List Char) × List Call :=
  match env.net (watchUrlOf videoId) with
  | .networkError => (.error netErrMsg, [.http (watchUrlOf videoId)])
  | .success resp =>
    match findCaptionsJson resp.body.toList with
    | none => (.error "No captions found", [.http (watchUrlOf videoId)])
    | some cap =>
      match env.jtracks (String.mk cap) with
      | none => (.error "JSON parse error", [.http (watchUrlOf videoId)])
      | some [] => (.error "No caption tracks available", [.http (watchUrlOf videoId)])
      | some (t :: ts) =>
        match env.net (selectUrl t ts) with
        | .networkError =>
          (.error netErrMsg, [.http (watchUrlOf videoId), .http (selectUrl t ts)])
        | .success capResp =>
          (.ok (parseTranscript capResp.body.toList),
           [.http (watchUrlOf videoId), .http (selectUrl t ts)])

/-- Answer extraction (server.ts lines 162-165): keep the text-typed
segments, take their texts, and join them with newline characters. -/
def extractAnswer (blocks : List Block) : String :=
  String.mk (joinSep '\n' ((blocks.filter (fun b => b.type == "text")).map (fun b => b.text.toList)))

/-- Model of the JavaScript or-else idiom on a possibly absent string
field: the fallback is used when the field is absent or empty. -/
def orDefault (v : Option String) (d : String) : String :=
  match v with
  | some t => if t.isEmpty then d else t
  | none => d

/-- The fixed placeholder title. -/
def defaultTitle : String := "YouTube Video"

/-- The deterministic fallback thumbnail URL of a video id. -/
def defaultThumb (id : String) : String :=
  "https://img.youtube.com/vi/" ++ id ++ "/maxresdefault.jpg"

/-- Metadata retrieval (server.ts lines 168-182): call the
embed-metadata endpoint; on transport failure, non-success status or
unparseable body keep the defaults; on success fall back field-wise
for absent or empty fields. -/
def fetchMeta (env : Env) (id : String) : String × String × List Call :=
  match env.net (oembedUrlOf id) with
  | .networkError => (defaultTitle, defaultThumb id, [.http (oembedUrlOf id)])
  | .success resp =>
    if resp.ok then
      match env.joembed resp.body with
      | none => (defaultTitle, defaultThumb id, [.http (oembedUrlOf id)])
      | some o =>
        (orDefault o.title defaultTitle,
         orDefault o.thumbnail_url (defaultThumb id),
         [.http (oembedUrlOf id)])
    else (defaultTitle, defaultThumb id, [.http (oembedUrlOf id)])

/-- Failure of the metadata lookup: transport failure, non-success
status, or unparseable body. -/
def metaFailed (env : Env) (id : String) : Bool :=
  match env.net (oembedUrlOf id) with
  | .networkError => true
  | .success resp => !resp.ok || (env.joembed resp.body).isNone

/-- Response bodies of the analyze endpoint. -/
inductive RespBody where
  | err : String → RespBody
  | errMsg : String → String → RespBody
  | success : String → String → String → String → String → RespBody
deriving DecidableEq

/-- An HTTP response of the analyze endpoint: status code and body.
The success body carries, in order, the analysis text, the video
title, the thumbnail URL, the video URL and the duration placeholder. -/
structure Response where
  status : Nat
  body : RespBody
deriving DecidableEq

/-- The default question substituted for an empty residual input. -/
def defaultQuestion : List Char := "What is this video about?".toList

/-- The URL substring extracted from the input, or the empty string
when the input has none (server.ts line 106). -/
def extractedUrl (input : String) : List Char :=
  (urlMatchL input.toList).getD []

/-- The question: the input with its first URL occurrence removed and
trimmed, or the default question when nothing remains
(server.ts line 107). -/
def questionOf (input : String) : List Char :=
  let q := trimJs (replaceFirst (extractedUrl input) [] input.toList)
  if q.isEmpty then defaultQuestion else q

/-- The fixed truncation marker of the context budgeter. -/
def truncMarker : List Char := "... [transcript truncated]".toList

/-- The context budgeter (server.ts lines 134-137): within budget the
transcript is unchanged, beyond it the first maxChars characters are
kept and the marker is appended. -/
def budget (maxChars : Nat) (s : List Char) : List Char :=
  if maxChars < s.length then s.take maxChars ++ truncMarker else s

/-- The prompt assembled from the bounded transcript and the question
(server.ts lines 146-156). -/
def buildPrompt (transcript question : List Char) : List Char :=
  "Here is a transcript from a YouTube video:\n\n<transcript>\n".toList ++ transcript
    ++ "\n</transcript>\n\nBased on this transcript, please answer the following question:\n\n".toList
    ++ question
    ++ "\n\nProvide a clear, helpful answer based only on what\x27s in the transcript.".toList

/-- The analyze endpoint (server.ts lines 96-201): validate the
input, resolve the video id, retrieve and bound the transcript, query
the model, retrieve metadata with silent fallback, and assemble the
response.  Returns the response together with the ordered list of
outbound calls. -/
def analyze (env : Env) (inp : Option String) : Response × List Call :=
  match inp with
  | none => (⟨400, .err "Input is required"⟩, [])
  | some input =>
    if input.isEmpty then (⟨400, .err "Input is required"⟩, [])
    else
      match getVideoIdL (extractedUrl input) with
      | none => (⟨400, .err "Invalid YouTube URL"⟩, [])
      | some vid =>
        match fetchTranscriptM env (String.mk vid) with
        | (.error _, calls) => (⟨400, .err transcriptErrMsg⟩, calls)
        | (.ok transcript, calls) =>
          if (trimJs transcript).isEmpty then (⟨400, .err transcriptErrMsg⟩, calls)
          else
            match env.llm (String.mk (buildPrompt (budget 100000 transcript) (questionOf input))) with
            | .error msg => (⟨500, .errMsg "Failed to analyze video" msg⟩, calls ++ [.inference])
            | .ok blocks =>
              match fetchMeta env (String.mk vid) with
              | (title, thumb, mcalls) =>
                (⟨200, .success (extractAnswer blocks) title thumb
                    ("https://www.youtube.com/watch?v=" ++ String.mk vid) "N/A"⟩,
                 calls ++ [.inference] ++ mcalls)

/-- Decidable equality of fallible outcomes, used to evaluate the
model on concrete environments. -/
instance {α β : Type} [DecidableEq α] [DecidableEq β] : DecidableEq (Except α β) := fun a b =>
  match a, b with
  | Except.error x, Except.error y =>
    if h : x = y then Decidable.isTrue (by rw [h]) else
      Decidable.isFalse (fun hc => by cases hc; exact h rfl)
  | Except.ok x, Except.ok y =>
    if h : x = y then Decidable.isTrue (by rw [h]) else
      Decidable.isFalse (fun hc => by cases hc; exact h rfl)
  | Except.error _, Except.ok _ => Decidable.isFalse (fun hc => by cases hc)
  | Except.ok _, Except.error _ => Decidable.isFalse (fun hc => by cases hc)

/-! Concrete environments used to instantiate the theorems. -/

/-- An inert environment: every outbound facility fails. -/
def envW : Env :=
  ⟨fun _ => FetchResult.networkError, fun _ => none, fun _ => none,
   fun _ => Except.error "down"⟩

/-- A watch-page document carrying one caption track listing. -/
def page2 : String := "\"captionTracks\": [\x7b\"baseUrl\":\"capurl\"\x7d]"

/-- An environment whose caption-track fetch answers with a
non-success status whose body is itself caption markup. -/
def env2 : Env :=
  ⟨fun u =>
      if u = watchUrlOf "vid" then FetchResult.success ⟨200, page2⟩
      else if u = "capurl" then FetchResult.success ⟨500, "<text>oops</text>"⟩
      else FetchResult.networkError,
   fun s => if s = "[\x7b\"baseUrl\":\"capurl\"\x7d]" then some [⟨"capurl", "en", none⟩] else none,
   fun _ => none,
   fun _ => Except.error "down"⟩

/-- A watch-page document for the full-pipeline environment. -/
def page7 : String := "\"captionTracks\": [T]"

/-- An environment in which the whole pipeline succeeds except the
metadata lookup, which suffers a network error. -/
def env7 : Env :=
  ⟨fun u =>
      if u = watchUrlOf "vid123" then FetchResult.success ⟨200, page7⟩
      else if u = "capurl7" then FetchResult.success ⟨200, "<text>hello</text>"⟩
      else FetchResult.networkError,
   fun s => if s = "[T]" then some [⟨"capurl7", "en", none⟩] else none,
   fun _ => none,
   fun _ => Except.ok [⟨"text", "answer"⟩]⟩

/-! Basic properties of the literal-pattern scanners. -/

theorem lstartsWith_append_self (p t : List Char) : lstartsWith p (p ++ t) = true := by
  induction p with
  | nil => rfl
  | cons c cs ih => simp [lstartsWith, ih]

theorem lstartsWith_iff (p : List Char) :
    ∀ s, lstartsWith p s = true ↔ ∃ t, s = p ++ t := by
  induction p with
  | nil => intro s; simp [lstartsWith]
  | cons c cs ih =>
    intro s
    cases s with
    | nil => simp [lstartsWith]
    | cons d ds =>
      simp only [lstartsWith, Bool.and_eq_true, beq_iff_eq, ih, List.cons_append,
        List.cons.injEq]
      constructor
      · rintro ⟨rfl, t, rfl⟩; exact ⟨t, rfl, rfl⟩
      · rintro ⟨t, rfl, rfl⟩; exact ⟨rfl, t, rfl⟩

theorem lstartsWith_of_append (p q s : List Char)
    (h : lstartsWith (p ++ q) s = true) : lstartsWith p s = true := by
  rcases (lstartsWith_iff (p ++ q) s).1 h with ⟨t, rfl⟩
  rw [List.append_assoc]
  exact lstartsWith_append_self p (q ++ t)

theorem splitFirst_self (p : Char) (ps t : List Char) :
    splitFirst (p :: ps) ((p :: ps) ++ t) = some ([], t) := by
  have hd : List.drop (p :: ps).length ((p :: ps) ++ t) = t := List.drop_left _ _
  rw [List.cons_append] at hd
  show splitFirst (p :: ps) (p :: (ps ++ t)) = some ([], t)
  have hl : lstartsWith (p :: ps) (p :: (ps ++ t)) = true := by
    rw [← List.cons_append]
    exact lstartsWith_append_self (p :: ps) t
  rw [splitFirst, if_pos hl, hd]

theorem splitFirst_clean (p : Char) (ps t : List Char) :
    ∀ a : List Char, (∀ c ∈ a, c ≠ p) →
      splitFirst (p :: ps) (a ++ ((p :: ps) ++ t)) = some (a, t) := by
  intro a
  induction a with
  | nil => intro _; rw [List.nil_append]; exact splitFirst_self p ps t
  | cons c a' ih =>
    intro h
    have hcp : c ≠ p := h c (List.mem_cons_self c a')
    have hpc : (p == c) = false := beq_eq_false_iff_ne.2 (Ne.symm hcp)
    have hlsw : lstartsWith (p :: ps) (c :: (a' ++ ((p :: ps) ++ t))) = false := by
      rw [lstartsWith, hpc, Bool.false_and]
    rw [List.cons_append, splitFirst, if_neg (by rw [hlsw]; exact Bool.false_ne_true),
      ih (fun x hx => h x (List.mem_cons_of_mem c hx))]

theorem splitFirst_some_eq (pat : List Char) :
    ∀ s pre post, splitFirst pat s = some (pre, post) → s = pre ++ pat ++ post := by
  intro s
  induction s with
  | nil =>
    intro pre post h
    rw [splitFirst] at h
    by_cases hp : pat.isEmpty
    · rw [if_pos hp] at h
      simp only [Option.some.injEq, Prod.mk.injEq] at h
      obtain ⟨h1, h2⟩ := h
      subst h1; subst h2
      simp_all [List.isEmpty_iff]
    · rw [if_neg hp] at h; cases h
  | cons c rest ih =>
    intro pre post h
    rw [splitFirst] at h
    by_cases hl : lstartsWith pat (c :: rest) = true
    · rw [if_pos hl] at h
      simp only [Option.some.injEq, Prod.mk.injEq] at h
      obtain ⟨h1, h2⟩ := h
      subst h1; subst h2
      rcases (lstartsWith_iff pat (c :: rest)).1 hl with ⟨t, ht⟩
      rw [ht, List.drop_left]
      simp
    · rw [if_neg hl] at h
      cases hr : splitFirst pat rest with
      | none => rw [hr] at h; cases h
      | some pp =>
        obtain ⟨pre2, post2⟩ := pp
        rw [hr] at h
        simp only [Option.some.injEq, Prod.mk.injEq] at h
        obtain ⟨h1, h2⟩ := h
        subst h1; subst h2
        have := ih pre2 post2 hr
        simp [this]

theorem splitFirst_none_of_not_contains (pat : List Char) :
    ∀ s, containsSub pat s = false → splitFirst pat s = none := by
  intro s
  induction s with
  | nil =>
    intro h
    rw [containsSub] at h
    rw [splitFirst, if_neg (by simp [h])]
  | cons c rest ih =>
    intro h
    rw [containsSub, Bool.or_eq_false_iff] at h
    rw [splitFirst, if_neg (by simp [h.1]), ih h.2]

theorem dropWhile_through (x : Char) (t : List Char) :
    ∀ a : List Char, (∀ c ∈ a, c ≠ x) →
      (a ++ x :: t).dropWhile (fun c => !(c == x)) = x :: t := by
  intro a
  induction a with
  | nil => intro _; simp [List.dropWhile]
  | cons c a' ih =>
    intro h
    have hc : c ≠ x := h c (List.mem_cons_self c a')
    have : (c == x) = false := beq_eq_false_iff_ne.2 hc
    simp only [List.cons_append, List.dropWhile, this]
    exact ih (fun y hy => h y (List.mem_cons_of_mem c hy))

/-! Equation lemmas for the fuel-indexed global replacement. -/

theorem replaceAllAux_congr (pat rep : List Char) :
    ∀ f1 f2 s, s.length ≤ f1 → s.length ≤ f2 →
      replaceAllAux pat rep f1 s = replaceAllAux pat rep f2 s := by
  intro f1
  induction f1 with
  | zero =>
    intro f2 s h1 _
    have : s = [] := List.length_eq_zero.1 (Nat.le_zero.1 h1)
    subst this
    cases f2 <;> rfl
  | succ n ih =>
    intro f2 s h1 h2
    cases s with
    | nil => cases f2 <;> rfl
    | cons c rest =>
      cases f2 with
      | zero => simp at h2
      | succ m =>
        have hr1 : rest.length ≤ n := by simp at h1; omega
        have hr2 : rest.length ≤ m := by simp at h2; omega
        have hd1 : (List.drop (pat.length - 1) rest).length ≤ n :=
          le_trans (by simp) hr1
        have hd2 : (List.drop (pat.length - 1) rest).length ≤ m :=
          le_trans (by simp) hr2
        simp only [replaceAllAux]
        split_ifs with hp hl
        · rfl
        · rw [ih _ _ hd1 hd2]
        · rw [ih _ _ hr1 hr2]

theorem replaceAll_nil (pat rep : List Char) : replaceAll pat rep [] = [] := rfl

theorem replaceAll_hit (p : Char) (ps rep : List Char) (c : Char) (cs : List Char)
    (h : lstartsWith (p :: ps) (c :: cs) = true) :
    replaceAll (p :: ps) rep (c :: cs) = rep ++ replaceAll (p :: ps) rep (List.drop ps.length cs) := by
  show replaceAllAux (p :: ps) rep (c :: cs).length (c :: cs) = _
  rw [List.length_cons, replaceAllAux, if_neg (by simp), if_pos h]
  have hlen : (p :: ps).length - 1 = ps.length := by simp
  rw [hlen]
  exact congrArg (rep ++ ·)
    (replaceAllAux_congr _ _ _ _ _ (le_trans (by simp) le_rfl) le_rfl)

theorem replaceAll_miss (pat rep : List Char) (c : Char) (cs : List Char)
    (hp : pat.isEmpty = false) (h : lstartsWith pat (c :: cs) = false) :
    replaceAll pat rep (c :: cs) = c :: replaceAll pat rep cs := by
  show replaceAllAux pat rep (c :: cs).length (c :: cs) = _
  rw [List.length_cons, replaceAllAux, if_neg (by rw [hp]; exact Bool.false_ne_true),
    if_neg (by rw [h]; exact Bool.false_ne_true)]
  rfl

/-! Equation lemmas for the text-element extraction. -/

theorem bool_eq_false {b : Bool} (h : ¬ b = true) : b = false := by
  cases b
  · rfl
  · exact absurd rfl h

theorem dropWhile_length_le (q : Char → Bool) : ∀ l : List Char, (l.dropWhile q).length ≤ l.length := by
  intro l
  induction l with
  | nil => exact le_rfl
  | cons c cs ih =>
    by_cases h : q c = true
    · rw [List.dropWhile_cons, if_pos h]
      exact le_trans ih (Nat.le_succ _)
    · rw [List.dropWhile_cons, if_neg h]

theorem findNext_length (s content rest : List Char)
    (h : findNext s = some (content, rest)) : rest.length < s.length := by
  rw [findNext] at h
  cases h1 : splitFirst openPat s with
  | none => rw [h1] at h; cases h
  | some pr =>
    obtain ⟨pre1, afterOpen⟩ := pr
    simp only [h1] at h
    have e1 : s = pre1 ++ openPat ++ afterOpen := splitFirst_some_eq _ _ _ _ h1
    cases h2 : afterOpen.dropWhile (fun c => !(c == '>')) with
    | nil => simp only [h2] at h; cases h
    | cons d rest1 =>
      simp only [h2] at h
      by_cases hd : (d == '>') = true
      · rw [if_pos hd] at h
        cases h3 : splitFirst closePat rest1 with
        | none => simp only [h3] at h; cases h
        | some pr2 =>
          obtain ⟨content2, rest2⟩ := pr2
          simp only [h3, Option.some.injEq, Prod.mk.injEq] at h
          obtain ⟨hh1, hh2⟩ := h
          have e3 : rest1 = content2 ++ closePat ++ rest2 := splitFirst_some_eq _ _ _ _ h3
          have l1 : (d :: rest1).length ≤ afterOpen.length := by
            rw [← h2]; exact dropWhile_length_le _ _
          have ls := congrArg List.length e1
          have lr := congrArg List.length e3
          simp only [List.length_append, List.length_cons] at ls lr l1
          rw [← hh2]
          omega
      · rw [if_neg hd] at h; cases h

theorem extractAux_congr :
    ∀ f1 f2 s, s.length ≤ f1 → s.length ≤ f2 → extractAux f1 s = extractAux f2 s := by
  intro f1
  induction f1 with
  | zero =>
    intro f2 s h1 _
    have hs : s = [] := List.length_eq_zero.1 (Nat.le_zero.1 h1)
    subst hs
    cases f2 with
    | zero => rfl
    | succ m => rfl
  | succ n ih =>
    intro f2 s h1 h2
    cases hf : findNext s with
    | none =>
      cases f2 with
      | zero =>
        have hs : s = [] := List.length_eq_zero.1 (Nat.le_zero.1 h2)
        subst hs; rfl
      | succ m => simp [extractAux, hf]
    | some pr =>
      obtain ⟨content, rest⟩ := pr
      have hlt := findNext_length s content rest hf
      cases f2 with
      | zero =>
        have hs : s = [] := List.length_eq_zero.1 (Nat.le_zero.1 h2)
        subst hs
        have hnil : findNext [] = none := rfl
        rw [hnil] at hf; cases hf
      | succ m =>
        simp only [extractAux, hf]
        have hr1 : rest.length ≤ n := by omega
        have hr2 : rest.length ≤ m := by omega
        rw [ih _ _ hr1 hr2]

theorem extractTexts_none (s : List Char) (h : findNext s = none) : extractTexts s = [] := by
  show extractAux s.length s = []
  cases hl : s.length with
  | zero => rfl
  | succ k => simp [extractAux, h]

theorem extractTexts_cons (s content rest : List Char)
    (h : findNext s = some (content, rest)) :
    extractTexts s = content :: extractTexts rest := by
  have hlt := findNext_length s content rest h
  show extractAux s.length s = content :: extractAux rest.length rest
  cases hl : s.length with
  | zero =>
    exfalso
    have hs : s = [] := List.length_eq_zero.1 hl
    subst hs
    have hnil : findNext [] = none := rfl
    rw [hnil] at h; cases h
  | succ k =>
    simp only [extractAux, h]
    rw [extractAux_congr k rest.length rest (by omega) le_rfl]

/-! Properties of the separator join. -/

theorem mem_joinSep (sep : Char) :
    ∀ parts (c : Char), c ∈ joinSep sep parts → c = sep ∨ ∃ part ∈ parts, c ∈ part := by
  intro parts
  induction parts with
  | nil => intro c hc; cases hc
  | cons s rest ih =>
    intro c hc
    cases rest with
    | nil =>
      right
      refine ⟨s, List.mem_cons_self s [], ?_⟩
      simpa [joinSep] using hc
    | cons t rs =>
      rw [joinSep] at hc
      rcases List.mem_append.1 hc with h1 | h2
      · right; exact ⟨s, List.mem_cons_self _ _, h1⟩
      · rcases List.mem_cons.1 h2 with rfl | h3
        · left; rfl
        · rcases ih c h3 with h4 | ⟨part, hp, hcp⟩
          · left; exact h4
          · right; exact ⟨part, List.mem_cons_of_mem _ hp, hcp⟩

/-! Derived properties of the global replacement. -/

theorem replaceAll_id_of_head_notin (p : Char) (ps rep : List Char) :
    ∀ s, p ∉ s → replaceAll (p :: ps) rep s = s := by
  intro s
  induction s with
  | nil => intro _; rfl
  | cons c cs ih =>
    intro h
    have hpc : (p == c) = false :=
      beq_eq_false_iff_ne.2 (fun he => h (by rw [he]; exact List.mem_cons_self c cs))
    have hlsw : lstartsWith (p :: ps) (c :: cs) = false := by
      rw [lstartsWith, hpc, Bool.false_and]
    rw [replaceAll_miss (p :: ps) rep c cs rfl hlsw, ih (fun hm => h (List.mem_cons_of_mem c hm))]

theorem replaceAll_single (a b : Char) :
    ∀ s, replaceAll [a] [b] s = s.map (fun c => if a == c then b else c) := by
  intro s
  induction s with
  | nil => rfl
  | cons c cs ih =>
    by_cases hac : (a == c) = true
    · have hlsw : lstartsWith [a] (c :: cs) = true := by
        rw [lstartsWith, hac, Bool.true_and]; rfl
      rw [replaceAll_hit a [] [b] c cs hlsw]
      simp only [List.length_nil, List.drop_zero, List.map_cons, if_pos hac]
      rw [ih]
      rfl
    · have hacf : (a == c) = false := bool_eq_false hac
      have hlsw : lstartsWith [a] (c :: cs) = false := by
        rw [lstartsWith, hacf, Bool.false_and]
      rw [replaceAll_miss [a] [b] c cs rfl hlsw]
      simp only [List.map_cons, if_neg hac]
      rw [ih]

theorem replaceAll_skip (p : Char) (ps rep : List Char) (t : List Char) :
    ∀ a, (∀ x ∈ a, x ≠ p) →
      replaceAll (p :: ps) rep (a ++ t) = a ++ replaceAll (p :: ps) rep t := by
  intro a
  induction a with
  | nil => intro _; rfl
  | cons c a2 ih =>
    intro h
    have hcp : c ≠ p := h c (List.mem_cons_self c a2)
    have hpc : (p == c) = false := beq_eq_false_iff_ne.2 (Ne.symm hcp)
    have hlsw : lstartsWith (p :: ps) (c :: (a2 ++ t)) = false := by
      rw [lstartsWith, hpc, Bool.false_and]
    rw [List.cons_append, replaceAll_miss (p :: ps) rep c (a2 ++ t) rfl hlsw,
      ih (fun x hx => h x (List.mem_cons_of_mem c hx)), List.cons_append]

theorem mem_replaceAll_of_mem (p : Char) (ps rep : List Char) (c : Char)
    (hc : c ∉ p :: ps) :
    ∀ s, c ∈ s → c ∈ replaceAll (p :: ps) rep s := by
  have H : ∀ n s, s.length ≤ n → c ∈ s → c ∈ replaceAll (p :: ps) rep s := by
    intro n
    induction n with
    | zero =>
      intro s hs hcs
      have : s = [] := List.length_eq_zero.1 (Nat.le_zero.1 hs)
      subst this; cases hcs
    | succ n ih =>
      intro s hs hcs
      cases s with
      | nil => cases hcs
      | cons d cs =>
        by_cases hl : lstartsWith (p :: ps) (d :: cs) = true
        · rcases (lstartsWith_iff _ _).1 hl with ⟨t, ht⟩
          rw [List.cons_append] at ht
          have hdp : d = p := (List.cons.injEq _ _ _ _ ▸ ht).1
          have hcst : cs = ps ++ t := (List.cons.injEq _ _ _ _ ▸ ht).2
          rw [replaceAll_hit p ps rep d cs hl]
          have hct : c ∈ t := by
            rcases List.mem_cons.1 hcs with rfl | h2
            · exact absurd (by rw [hdp]; exact List.mem_cons_self p ps) hc
            · rw [hcst] at h2
              rcases List.mem_append.1 h2 with h3 | h3
              · exact absurd (List.mem_cons_of_mem p h3) hc
              · exact h3
          have hdrop : List.drop ps.length cs = t := by
            rw [hcst, List.drop_left]
          rw [hdrop]
          have hlen : t.length ≤ n := by
            have : cs.length = ps.length + t.length := by rw [hcst]; simp
            simp only [List.length_cons] at hs
            omega
          exact List.mem_append_right rep (ih t hlen hct)
        · rw [replaceAll_miss (p :: ps) rep d cs rfl (bool_eq_false hl)]
          rcases List.mem_cons.1 hcs with rfl | h2
          · exact List.mem_cons_self _ _
          · have hlen : cs.length ≤ n := by
              simp only [List.length_cons] at hs; omega
            exact List.mem_cons_of_mem _ (ih cs hlen h2)
  exact fun s => H s.length s le_rfl

theorem mem_rep_of_contains (p : Char) (ps rep : List Char) (c : Char) (hc : c ∈ rep) :
    ∀ s, containsSub (p :: ps) s = true → c ∈ replaceAll (p :: ps) rep s := by
  have H : ∀ n s, s.length ≤ n → containsSub (p :: ps) s = true →
      c ∈ replaceAll (p :: ps) rep s := by
    intro n
    induction n with
    | zero =>
      intro s hs hcs
      have : s = [] := List.length_eq_zero.1 (Nat.le_zero.1 hs)
      subst this
      rw [containsSub] at hcs
      simp [List.isEmpty_cons] at hcs
    | succ n ih =>
      intro s hs hcs
      cases s with
      | nil =>
        rw [containsSub] at hcs
        simp [List.isEmpty_cons] at hcs
      | cons d cs =>
        by_cases hl : lstartsWith (p :: ps) (d :: cs) = true
        · rw [replaceAll_hit p ps rep d cs hl]
          exact List.mem_append_left _ hc
        · rw [containsSub, Bool.or_eq_true] at hcs
          have h2 : containsSub (p :: ps) cs = true := by
            rcases hcs with h1 | h1
            · exact absurd h1 hl
            · exact h1
          rw [replaceAll_miss (p :: ps) rep d cs rfl (bool_eq_false hl)]
          have hlen : cs.length ≤ n := by
            simp only [List.length_cons] at hs; omega
          exact List.mem_cons_of_mem _ (ih cs hlen h2)
  exact fun s => H s.length s le_rfl

/-! Small facts about the substring test. -/

theorem containsSub_cons_of (pat : List Char) (c : Char) (s : List Char)
    (h : containsSub pat s = true) : containsSub pat (c :: s) = true := by
  rw [containsSub, h, Bool.or_true]

theorem containsSub_tail (p : Char) (q : List Char) (d : Char) (z : List Char)
    (hne : p ≠ d) (h : containsSub (p :: q) (d :: z) = true) :
    containsSub (p :: q) z = true := by
  rw [containsSub, Bool.or_eq_true] at h
  rcases h with h1 | h1
  · rw [lstartsWith, beq_eq_false_iff_ne.2 hne, Bool.false_and] at h1; cases h1
  · exact h1

theorem containsSub_of_lstartsWith (pat s : List Char) (h : lstartsWith pat s = true) :
    containsSub pat s = true := by
  cases s with
  | nil =>
    cases pat with
    | nil => rfl
    | cons p ps => rw [lstartsWith] at h; cases h
  | cons c cs => rw [containsSub, h, Bool.true_or]

/-! Helper facts for the claim theorems. -/

theorem takeWhile_all (q : Char → Bool) :
    ∀ x : List Char, (∀ c ∈ x, q c = true) → x.takeWhile q = x := by
  intro x
  induction x with
  | nil => intro _; rfl
  | cons c cs ih =>
    intro h
    rw [List.takeWhile_cons, if_pos (h c (List.mem_cons_self c cs)),
      ih (fun y hy => h y (List.mem_cons_of_mem c hy))]

theorem find?_first (p : CaptionTrack → Bool) (e : CaptionTrack) (post : List CaptionTrack)
    (he : p e = true) :
    ∀ pre, (∀ x ∈ pre, p x = false) → (pre ++ e :: post).find? p = some e := by
  intro pre
  induction pre with
  | nil => intro _; rw [List.nil_append]; exact List.find?_cons_of_pos _ he
  | cons a pre2 ih =>
    intro h
    rw [List.cons_append,
      List.find?_cons_of_neg _ (by rw [h a (List.mem_cons_self a pre2)]; exact Bool.false_ne_true)]
    exact ih fun x hx => h x (List.mem_cons_of_mem a hx)

theorem getVideoIdL_hit (s cap : List Char) (h : tryIdAt s = some cap) :
    getVideoIdL s = some cap := by
  cases s with
  | nil =>
    have : tryIdAt [] = none := rfl
    rw [this] at h; cases h
  | cons c rest => simp only [getVideoIdL, h]

theorem smk_append (a b : List Char) : String.mk (a ++ b) = String.mk a ++ String.mk b := rfl

theorem smk_toList (t : String) : String.mk t.toList = t := rfl

theorem str_newline_assoc (t : String) (j : List Char) :
    t ++ "\n" ++ String.mk j = String.mk (t.toList ++ '\n' :: j) := by
  cases t with
  | mk tl =>
    show String.mk ((tl ++ ['\n']) ++ j) = String.mk (tl ++ '\n' :: j)
    exact congrArg String.mk (by simp)

/-! The claim theorems. -/

/-- Claim C3: for every transcript string, the context budgeter with
limit 100000 returns the string unchanged when it has at most 100000
characters, and otherwise returns its first 100000 characters
followed by the exact truncation marker. -/
theorem C3_budget (s : List Char) :
    (s.length ≤ 100000 → budget 100000 s = s) ∧
    (100000 < s.length →
      budget 100000 s = s.take 100000 ++ "... [transcript truncated]".toList) := by
  constructor
  · intro h
    rw [budget, if_neg (by omega)]
  · intro h
    rw [budget, if_pos h]
    rfl

/-- Witness for claim C3 at concrete inputs on both sides of the
limit. -/
theorem C3_budget_w :
    ("ok".toList.length ≤ 100000 ∧ budget 100000 "ok".toList = "ok".toList) ∧
    (100000 < (List.replicate 100001 'a').length ∧
      budget 100000 (List.replicate 100001 'a') =
        (List.replicate 100001 'a').take 100000 ++ "... [transcript truncated]".toList) :=
  ⟨⟨by decide, (C3_budget "ok".toList).1 (by decide)⟩,
   ⟨by rw [List.length_replicate]; omega,
    (C3_budget (List.replicate 100001 'a')).2 (by rw [List.length_replicate]; omega)⟩⟩

/-- Claim C4: the context budgeter at limit 100000 with the fixed
marker is idempotent: budgeting a budgeted transcript returns it
unchanged. -/
theorem C4_budget_idem (s : List Char) :
    budget 100000 (budget 100000 s) = budget 100000 s := by
  by_cases h : 100000 < s.length
  · have hs : budget 100000 s = s.take 100000 ++ truncMarker := by
      rw [budget, if_pos h]
    rw [hs]
    have h1 : (s.take 100000).length = 100000 := by
      rw [List.length_take]
      exact min_eq_left (le_of_lt h)
    have hlen : 100000 < (s.take 100000 ++ truncMarker).length := by
      rw [List.length_append, h1]
      have : truncMarker.length = 26 := rfl
      omega
    rw [budget, if_pos hlen, List.take_append_eq_append_take, h1]
    simp [List.take_take]
  · have hs : budget 100000 s = s := by rw [budget, if_neg h]
    rw [hs, hs]

/-- Claim C5: the video id resolver extracts the same identifier from
each of the three supported URL shapes, for every nonempty identifier
made of admissible id characters. -/
theorem C5_shapes (x : List Char) (hne : x ≠ []) (hid : ∀ c ∈ x, idChar c = true) :
    getVideoIdL (watchPat ++ x) = some x ∧
    getVideoIdL (shortPat ++ x) = some x ∧
    getVideoIdL (embedPat ++ x) = some x := by
  have hTW : x.takeWhile idChar = x := takeWhile_all idChar x hid
  have hxe : x.isEmpty = false := by
    cases x with
    | nil => exact absurd rfl hne
    | cons a b => rfl
  refine ⟨?_, ?_, ?_⟩
  · have h1 : tryShapeAt (watchPat ++ x) = some x := by
      rw [tryShapeAt, if_pos (lstartsWith_append_self _ _), List.drop_left]
    apply getVideoIdL_hit
    simp only [tryIdAt, h1, hTW, hxe, Bool.false_eq_true, if_false]
  · have hw : lstartsWith watchPat (shortPat ++ x) = false := rfl
    have h1 : tryShapeAt (shortPat ++ x) = some x := by
      rw [tryShapeAt, if_neg (by rw [hw]; exact Bool.false_ne_true),
        if_pos (lstartsWith_append_self _ _), List.drop_left]
    apply getVideoIdL_hit
    simp only [tryIdAt, h1, hTW, hxe, Bool.false_eq_true, if_false]
  · have hw : lstartsWith watchPat (embedPat ++ x) = false := rfl
    have hs : lstartsWith shortPat (embedPat ++ x) = false := rfl
    have h1 : tryShapeAt (embedPat ++ x) = some x := by
      rw [tryShapeAt, if_neg (by rw [hw]; exact Bool.false_ne_true),
        if_neg (by rw [hs]; exact Bool.false_ne_true),
        if_pos (lstartsWith_append_self _ _), List.drop_left]
    apply getVideoIdL_hit
    simp only [tryIdAt, h1, hTW, hxe, Bool.false_eq_true, if_false]

/-- Witness for claim C5 at a concrete identifier. -/
theorem C5_shapes_w :
    ("abc123".toList ≠ [] ∧ ∀ c ∈ "abc123".toList, idChar c = true) ∧
    getVideoIdL (watchPat ++ "abc123".toList) = some "abc123".toList ∧
    getVideoIdL (shortPat ++ "abc123".toList) = some "abc123".toList ∧
    getVideoIdL (embedPat ++ "abc123".toList) = some "abc123".toList :=
  ⟨⟨by decide, by decide⟩, C5_shapes "abc123".toList (by decide) (by decide)⟩

/-- Claim C6: when the input contains no URL substring, or more
generally no URL of a known video shape, the analyze endpoint answers
with a 400 error response and performs no outbound call. -/
theorem C6_no_network (env : Env) (input : String)
    (h : urlMatchL input.toList = none ∨
         getVideoIdL ((urlMatchL input.toList).getD []) = none) :
    (analyze env (some input)).1.status = 400 ∧
    (∃ m, (analyze env (some input)).1.body = RespBody.err m) ∧
    (analyze env (some input)).2 = [] := by
  have hvid : getVideoIdL (extractedUrl input) = none := by
    rcases h with h1 | h1
    · rw [extractedUrl, h1]; rfl
    · exact h1
  by_cases he : input.isEmpty = true
  · have ha : analyze env (some input) = (⟨400, RespBody.err "Input is required"⟩, []) := by
      simp only [analyze, he, if_true]
    rw [ha]
    exact ⟨rfl, ⟨"Input is required", rfl⟩, rfl⟩
  · have ha : analyze env (some input) = (⟨400, RespBody.err "Invalid YouTube URL"⟩, []) := by
      simp only [analyze, he, Bool.false_eq_true, if_false, hvid]
    rw [ha]
    exact ⟨rfl, ⟨"Invalid YouTube URL", rfl⟩, rfl⟩

/-- Witness for claim C6 at a concrete URL-free input. -/
theorem C6_no_network_w :
    urlMatchL "not a url".toList = none ∧
    (analyze envW (some "not a url")).1.status = 400 ∧
    (analyze envW (some "not a url")).2 = [] :=
  ⟨by decide,
   (C6_no_network envW "not a url" (Or.inl (by decide))).1,
   (C6_no_network envW "not a url" (Or.inl (by decide))).2.2⟩

/-- Claim C8: for every nonempty caption-track list, the selected
fetch URL is that of the first English-marked track when one exists,
and that of the first listed track otherwise. -/
theorem C8_selection (t0 : CaptionTrack) (ts : List CaptionTrack) :
    ((∀ e ∈ t0 :: ts, isEnglish e = false) → selectUrl t0 ts = t0.baseUrl) ∧
    (∀ pre e post, t0 :: ts = pre ++ e :: post → isEnglish e = true →
      (∀ x ∈ pre, isEnglish x = false) → selectUrl t0 ts = e.baseUrl) := by
  constructor
  · intro hall
    have hnone : (t0 :: ts).find? isEnglish = none :=
      List.find?_eq_none.2 (fun x hx => by rw [hall x hx]; exact Bool.false_ne_true)
    rw [selectUrl, hnone]
    rfl
  · intro pre e post heq he hpre
    rw [selectUrl, heq, find?_first isEnglish e post he pre hpre]
    rfl

/-- Witness for claim C8 at a concrete two-track list. -/
theorem C8_selection_w :
    isEnglish (CaptionTrack.mk "u2" "en" none) = true ∧
    selectUrl (CaptionTrack.mk "u1" "fr" none) [CaptionTrack.mk "u2" "en" none] = "u2" :=
  ⟨by decide,
   (C8_selection (CaptionTrack.mk "u1" "fr" none) [CaptionTrack.mk "u2" "en" none]).2
     [CaptionTrack.mk "u1" "fr" none] (CaptionTrack.mk "u2" "en" none) []
     (by decide) (by decide) (by decide)⟩

/-- Counterexample to claim C9 as stated: with two text segments the
extracted answer joins the texts with a newline separator, which is
not their plain concatenation. -/
theorem C9_cex :
    extractAnswer [Block.mk "text" "a", Block.mk "text" "b"] = "a\nb" ∧
    extractAnswer [Block.mk "text" "a", Block.mk "text" "b"] ≠ "a" ++ "b" := by
  constructor
  · decide
  · decide

/-- Claim C9 (amended): the extracted answer is obtained from the
structured response by skipping every non-text segment and joining
the text segments' texts, in response order, with single newline
separators. -/
theorem C9_extract_amended :
    extractAnswer [] = "" ∧
    (∀ b rest, (b.type == "text") = false →
      extractAnswer (b :: rest) = extractAnswer rest) ∧
    (∀ b rest, (b.type == "text") = true →
      ((∀ b2 ∈ rest, (b2.type == "text") = false) →
        extractAnswer (b :: rest) = b.text) ∧
      ((∃ b2 ∈ rest, (b2.type == "text") = true) →
        extractAnswer (b :: rest) = b.text ++ "\n" ++ extractAnswer rest)) := by
  refine ⟨rfl, ?_, ?_⟩
  · intro b rest h
    simp only [extractAnswer, List.filter_cons, h, Bool.false_eq_true, if_false]
  · intro b rest h
    constructor
    · intro hall
      have hnil : rest.filter (fun b2 => b2.type == "text") = [] :=
        List.filter_eq_nil_iff.2 (fun a ha => by rw [hall a ha]; exact Bool.false_ne_true)
      simp only [extractAnswer, List.filter_cons, h, if_true, hnil, List.map_cons,
        List.map_nil, joinSep]
      exact smk_toList b.text
    · rintro ⟨b2, hb2, hb2t⟩
      have hmem : b2 ∈ rest.filter (fun x => x.type == "text") :=
        List.mem_filter.2 ⟨hb2, hb2t⟩
      cases hf : rest.filter (fun x => x.type == "text") with
      | nil => rw [hf] at hmem; cases hmem
      | cons f fs =>
        simp only [extractAnswer, List.filter_cons, h, if_true, hf, List.map_cons, joinSep]
        rw [str_newline_assoc]

/-- Witness for claim C9's amended statement at concrete blocks. -/
theorem C9_extract_amended_w :
    ((Block.mk "thinking" "x").type == "text") = false ∧
    extractAnswer [Block.mk "thinking" "x", Block.mk "text" "a"] =
      extractAnswer [Block.mk "text" "a"] :=
  ⟨by decide,
   C9_extract_amended.2.1 (Block.mk "thinking" "x") [Block.mk "text" "a"] (by decide)⟩

/-- Counterexample to claim C2 as stated: the caption-track fetch in
the concrete environment answers with status 500, a non-success
response, yet the retrieval does not fail and the response body flows
on as caption content. -/
theorem C2_cex :
    env2.net "capurl" = FetchResult.success ⟨500, "<text>oops</text>"⟩ ∧
    HttpResponse.ok ⟨500, "<text>oops</text>"⟩ = false ∧
    (fetchTranscriptM env2 "vid").1 = Except.ok "oops".toList :=
  ⟨by decide, by decide, by decide⟩

/-- Claim C2 (amended): the caption retrieval fails on network error
at the caption-track fetch, but a response is never checked for a
success status: its body flows on to the parser as the caption
document whatever the status is. -/
theorem C2_fetch_amended (env : Env) (id : String) (pageResp : HttpResponse)
    (cap : List Char) (t : CaptionTrack) (ts : List CaptionTrack)
    (hPage : env.net (watchUrlOf id) = FetchResult.success pageResp)
    (hCap : findCaptionsJson pageResp.body.toList = some cap)
    (hTracks : env.jtracks (String.mk cap) = some (t :: ts)) :
    (env.net (selectUrl t ts) = FetchResult.networkError →
      (fetchTranscriptM env id).1 = Except.error netErrMsg) ∧
    (∀ capResp, env.net (selectUrl t ts) = FetchResult.success capResp →
      (fetchTranscriptM env id).1 = Except.ok (parseTranscript capResp.body.toList)) := by
  constructor
  · intro hNet
    simp only [fetchTranscriptM, hPage, hCap, hTracks, hNet]
  · intro capResp hNet
    simp only [fetchTranscriptM, hPage, hCap, hTracks, hNet]

/-- Witness for claim C2's amended statement in the concrete
environment. -/
theorem C2_fetch_amended_w :
    env2.net (watchUrlOf "vid") = FetchResult.success ⟨200, page2⟩ ∧
    findCaptionsJson page2.toList = some "[\x7b\"baseUrl\":\"capurl\"\x7d]".toList ∧
    env2.jtracks (String.mk "[\x7b\"baseUrl\":\"capurl\"\x7d]".toList) =
      some [CaptionTrack.mk "capurl" "en" none] ∧
    (fetchTranscriptM env2 "vid").1 = Except.ok (parseTranscript "<text>oops</text>".toList) := by
  refine ⟨by decide, by decide, by decide, ?_⟩
  exact (C2_fetch_amended env2 "vid" ⟨200, page2⟩ "[\x7b\"baseUrl\":\"capurl\"\x7d]".toList
      (CaptionTrack.mk "capurl" "en" none) [] (by decide) (by decide) (by decide)).2
      ⟨500, "<text>oops</text>"⟩ (by decide)

/-- Claim C7: for a request that succeeds through inference, any
failure of the metadata lookup (network error, non-success status or
unparseable body) leaves the response a 200 success whose title is
the fixed placeholder and whose thumbnail URL is built
deterministically from the video id. -/
theorem C7_meta_fallback (env : Env) (input : String) (vid transcript : List Char)
    (blocks : List Block)
    (hne : input.isEmpty = false)
    (hVid : getVideoIdL (extractedUrl input) = some vid)
    (hT : (fetchTranscriptM env (String.mk vid)).1 = Except.ok transcript)
    (hNE : (trimJs transcript).isEmpty = false)
    (hLlm : env.llm (String.mk (buildPrompt (budget 100000 transcript) (questionOf input))) =
      Except.ok blocks)
    (hMeta : metaFailed env (String.mk vid) = true) :
    (analyze env (some input)).1 =
      ⟨200, RespBody.success (extractAnswer blocks) "YouTube Video"
        ("https://img.youtube.com/vi/" ++ String.mk vid ++ "/maxresdefault.jpg")
        ("https://www.youtube.com/watch?v=" ++ String.mk vid) "N/A"⟩ := by
  have hMetaEq : fetchMeta env (String.mk vid) =
      ("YouTube Video",
       "https://img.youtube.com/vi/" ++ String.mk vid ++ "/maxresdefault.jpg",
       [Call.http (oembedUrlOf (String.mk vid))]) := by
    cases hoe : env.net (oembedUrlOf (String.mk vid)) with
    | networkError => simp only [fetchMeta, hoe]; rfl
    | success resp =>
      simp only [metaFailed, hoe] at hMeta
      by_cases hok : resp.ok = true
      · have hj : (env.joembed resp.body).isNone = true := by
          rw [Bool.or_eq_true] at hMeta
          rcases hMeta with h1 | h1
          · rw [hok] at h1; cases h1
          · exact h1
        have hjn : env.joembed resp.body = none := Option.isNone_iff_eq_none.1 hj
        simp only [fetchMeta, hoe, hok, if_true, hjn]
        rfl
      · have hokf : resp.ok = false := bool_eq_false hok
        simp only [fetchMeta, hoe, hokf, Bool.false_eq_true, if_false]
        rfl
  rcases hfm : fetchTranscriptM env (String.mk vid) with ⟨tr, calls⟩
  rw [hfm] at hT
  simp only at hT
  subst hT
  simp only [analyze, hne, Bool.false_eq_true, if_false, hVid, hfm, hNE, hLlm, hMetaEq]

/-- Witness for claim C7 in the concrete environment whose metadata
endpoint suffers a network error while everything else succeeds. -/
theorem C7_meta_fallback_w :
    (("https://youtu.be/vid123" : String).isEmpty = false ∧
     getVideoIdL (extractedUrl "https://youtu.be/vid123") = some "vid123".toList ∧
     (fetchTranscriptM env7 (String.mk "vid123".toList)).1 = Except.ok "hello".toList ∧
     (trimJs "hello".toList).isEmpty = false ∧
     metaFailed env7 (String.mk "vid123".toList) = true) ∧
    (analyze env7 (some "https://youtu.be/vid123")).1 =
      ⟨200, RespBody.success (extractAnswer [Block.mk "text" "answer"]) "YouTube Video"
        ("https://img.youtube.com/vi/" ++ String.mk "vid123".toList ++ "/maxresdefault.jpg")
        ("https://www.youtube.com/watch?v=" ++ String.mk "vid123".toList) "N/A"⟩ := by
  refine ⟨⟨by decide, by decide, by decide, by decide, by decide⟩, ?_⟩
  exact C7_meta_fallback env7 "https://youtu.be/vid123" "vid123".toList "hello".toList
    [Block.mk "text" "answer"] (by decide) (by decide) (by decide) (by decide) rfl (by decide)

/-! Interaction of the substring test with the global replacement,
used to analyse the ordered entity decoding. -/

theorem containsSub_strip (p : Char) (z t : List Char) :
    ∀ a, (∀ x ∈ a, x ≠ p) →
      containsSub (p :: z) (a ++ t) = true → containsSub (p :: z) t = true := by
  intro a
  induction a with
  | nil => intro _ h; exact h
  | cons c a2 ih =>
    intro h hc
    rw [List.cons_append] at hc
    exact ih (fun x hx => h x (List.mem_cons_of_mem c hx))
      (containsSub_tail p z c (a2 ++ t) (Ne.symm (h c (List.mem_cons_self c a2))) hc)

theorem containsSub_append_left (pat t : List Char) (h : containsSub pat t = true) :
    ∀ x, containsSub pat (x ++ t) = true := by
  intro x
  induction x with
  | nil => exact h
  | cons c x2 ih =>
    rw [List.cons_append]
    exact containsSub_cons_of pat c _ ih

theorem lstartsWith_le_append :
    ∀ (pat a : List Char), pat.length ≤ a.length →
      ∀ r, lstartsWith pat (a ++ r) = lstartsWith pat a := by
  intro pat
  induction pat with
  | nil => intro a _ r; rfl
  | cons p ps ih =>
    intro a hlen r
    cases a with
    | nil => simp at hlen
    | cons c cs =>
      simp only [List.length_cons, Nat.succ_le_succ_iff] at hlen
      rw [List.cons_append, lstartsWith, lstartsWith, ih cs hlen r]

theorem collapse_step (p : Char) (q b : List Char)
    (hq : ∀ x ∈ q, x ≠ p) (hb : ∀ x ∈ b, x ≠ p) :
    ∀ s, containsSub ((p :: q) ++ b) s = true →
      containsSub (p :: b) (replaceAll (p :: q) [p] s) = true := by
  have H : ∀ n s, s.length ≤ n → containsSub ((p :: q) ++ b) s = true →
      containsSub (p :: b) (replaceAll (p :: q) [p] s) = true := by
    intro n
    induction n with
    | zero =>
      intro s hs hcs
      have hnil : s = [] := List.length_eq_zero.1 (Nat.le_zero.1 hs)
      subst hnil
      rw [containsSub, show ((p :: q) ++ b).isEmpty = false from rfl] at hcs
      cases hcs
    | succ n ih =>
      intro s hs hcs
      cases s with
      | nil =>
        rw [containsSub, show ((p :: q) ++ b).isEmpty = false from rfl] at hcs
        cases hcs
      | cons d cs =>
        rw [containsSub, Bool.or_eq_true] at hcs
        by_cases hl : lstartsWith (p :: q) (d :: cs) = true
        · rcases (lstartsWith_iff (p :: q) (d :: cs)).1 hl with ⟨t, ht⟩
          rw [List.cons_append] at ht
          have hcst : cs = q ++ t := (List.cons.injEq _ _ _ _ ▸ ht).2
          rw [replaceAll_hit p q [p] d cs hl]
          have hdrop : List.drop q.length cs = t := by rw [hcst, List.drop_left]
          rw [hdrop]
          rcases hcs with hA | hB
          · rcases (lstartsWith_iff ((p :: q) ++ b) (d :: cs)).1 hA with ⟨t2, ht2⟩
            rw [List.append_assoc, List.cons_append] at ht2
            have hcst2 : cs = q ++ (b ++ t2) := (List.cons.injEq _ _ _ _ ▸ ht2).2
            have htb : t = b ++ t2 := by
              have hqq : q ++ t = q ++ (b ++ t2) := by rw [← hcst, hcst2]
              exact List.append_cancel_left hqq
            rw [htb, replaceAll_skip p q [p] t2 b hb]
            have hshape : [p] ++ (b ++ replaceAll (p :: q) [p] t2) =
                (p :: b) ++ replaceAll (p :: q) [p] t2 := by simp
            rw [hshape]
            exact containsSub_of_lstartsWith _ _ (lstartsWith_append_self _ _)
          · have hB2 : containsSub ((p :: q) ++ b) (q ++ t) = true := by
              rw [← hcst]; exact hB
            have hstrip : containsSub (p :: (q ++ b)) t = true :=
              containsSub_strip p (q ++ b) t q hq hB2
            have htlen : t.length ≤ n := by
              have hclen := congrArg List.length hcst
              simp only [List.length_append, List.length_cons] at hs hclen
              omega
            exact containsSub_cons_of _ p _ (ih t htlen hstrip)
        · have hB : containsSub ((p :: q) ++ b) cs = true := by
            rcases hcs with hA | hB
            · exact absurd (lstartsWith_of_append (p :: q) b (d :: cs) hA) hl
            · exact hB
          rw [replaceAll_miss (p :: q) [p] d cs rfl (bool_eq_false hl)]
          have hclen : cs.length ≤ n := by
            simp only [List.length_cons] at hs; omega
          exact containsSub_cons_of _ d _ (ih cs hclen hB)
  exact fun s => H s.length s le_rfl

theorem containsSub_replaceAll_keep (p : Char) (q rep : List Char) (g : Char) (w : List Char)
    (hA : lstartsWith (p :: q) (g :: w) = false)
    (hlen : (p :: q).length ≤ (g :: w).length)
    (hw : ∀ x ∈ w, x ≠ p)
    (hqg : ∀ x ∈ q, x ≠ g) :
    ∀ s, containsSub (g :: w) s = true →
      containsSub (g :: w) (replaceAll (p :: q) rep s) = true := by
  have H : ∀ n s, s.length ≤ n → containsSub (g :: w) s = true →
      containsSub (g :: w) (replaceAll (p :: q) rep s) = true := by
    intro n
    induction n with
    | zero =>
      intro s hs hcs
      have hnil : s = [] := List.length_eq_zero.1 (Nat.le_zero.1 hs)
      subst hnil
      rw [containsSub] at hcs
      cases hcs
    | succ n ih =>
      intro s hs hcs
      cases s with
      | nil => rw [containsSub] at hcs; cases hcs
      | cons d cs =>
        rw [containsSub, Bool.or_eq_true] at hcs
        by_cases hl : lstartsWith (p :: q) (d :: cs) = true
        · rcases (lstartsWith_iff (p :: q) (d :: cs)).1 hl with ⟨t, ht⟩
          rw [List.cons_append] at ht
          have hcst : cs = q ++ t := (List.cons.injEq _ _ _ _ ▸ ht).2
          have hB : containsSub (g :: w) cs = true := by
            rcases hcs with h1 | h1
            · rcases (lstartsWith_iff (g :: w) (d :: cs)).1 h1 with ⟨r, hr⟩
              rw [hr, lstartsWith_le_append (p :: q) (g :: w) hlen r, hA] at hl
              cases hl
            · exact h1
          have hstrip : containsSub (g :: w) t = true := by
            rw [hcst] at hB
            exact containsSub_strip g w t q hqg hB
          have htlen : t.length ≤ n := by
            have hclen := congrArg List.length hcst
            simp only [List.length_append, List.length_cons] at hs hclen
            omega
          rw [replaceAll_hit p q rep d cs hl]
          have hdrop : List.drop q.length cs = t := by rw [hcst, List.drop_left]
          rw [hdrop]
          exact containsSub_append_left (g :: w) _ (ih t htlen hstrip) rep
        · rw [replaceAll_miss (p :: q) rep d cs rfl (bool_eq_false hl)]
          rcases hcs with h1 | h1
          · rcases (lstartsWith_iff (g :: w) (d :: cs)).1 h1 with ⟨r, hr⟩
            rw [List.cons_append] at hr
            have hdg : d = g := (List.cons.injEq _ _ _ _ ▸ hr).1
            have hcsr : cs = w ++ r := (List.cons.injEq _ _ _ _ ▸ hr).2
            rw [hcsr, replaceAll_skip p q rep r w hw, hdg]
            have hshape : g :: (w ++ replaceAll (p :: q) rep r) =
                (g :: w) ++ replaceAll (p :: q) rep r := by simp
            rw [hshape]
            exact containsSub_of_lstartsWith _ _ (lstartsWith_append_self _ _)
          · have hclen : cs.length ≤ n := by
              simp only [List.length_cons] at hs; omega
            exact containsSub_cons_of _ d _ (ih cs hclen h1)
  exact fun s => H s.length s le_rfl

/-- Claim C10: entity decoding is applied as ordered global
replacements with the ampersand escape first, so nested escapes are
double-decoded: every segment containing the nested less-than escape
(respectively greater-than escape) decodes to text containing a
literal opening bracket (respectively closing bracket), and a caption
document carrying such a segment parses to the bare bracket rather
than to the single-pass escape. -/
theorem C10_double_decode :
    (∀ s, containsSub "&amp;lt;".toList s = true → '<' ∈ decodeSegment s) ∧
    (∀ s, containsSub "&amp;gt;".toList s = true → '>' ∈ decodeSegment s) ∧
    parseTranscript "<text>&amp;lt;</text>".toList = "<".toList ∧
    parseTranscript "<text>&amp;gt;</text>".toList = ">".toList := by
  refine ⟨?_, ?_, by decide, by decide⟩
  · intro s h
    have h1 : containsSub ltPat (replaceAll ampPat ['&'] s) = true :=
      collapse_step '&' "amp;".toList "lt;".toList (by decide) (by decide) s h
    have h2 : '<' ∈ replaceAll ltPat ['<'] (replaceAll ampPat ['&'] s) :=
      mem_rep_of_contains '&' "lt;".toList ['<'] '<' (by decide) _ h1
    have h3 : '<' ∈ replaceAll gtPat ['>'] (replaceAll ltPat ['<'] (replaceAll ampPat ['&'] s)) :=
      mem_replaceAll_of_mem '&' "gt;".toList ['>'] '<' (by decide) _ h2
    have h4 := mem_replaceAll_of_mem '&' "quot;".toList ['"'] '<' (by decide) _ h3
    have h5 := mem_replaceAll_of_mem '&' ['#', '3', '9', ';'] aposRep '<' (by decide) _ h4
    exact mem_replaceAll_of_mem '\n' [] [' '] '<' (by decide) _ h5
  · intro s h
    have h1 : containsSub gtPat (replaceAll ampPat ['&'] s) = true :=
      collapse_step '&' "amp;".toList "gt;".toList (by decide) (by decide) s h
    have h2 : containsSub gtPat (replaceAll ltPat ['<'] (replaceAll ampPat ['&'] s)) = true :=
      containsSub_replaceAll_keep '&' "lt;".toList ['<'] '&' "gt;".toList
        (by decide) (by decide) (by decide) (by decide) _ h1
    have h3 : '>' ∈ replaceAll gtPat ['>'] (replaceAll ltPat ['<'] (replaceAll ampPat ['&'] s)) :=
      mem_rep_of_contains '&' "gt;".toList ['>'] '>' (by decide) _ h2
    have h4 := mem_replaceAll_of_mem '&' "quot;".toList ['"'] '>' (by decide) _ h3
    have h5 := mem_replaceAll_of_mem '&' ['#', '3', '9', ';'] aposRep '>' (by decide) _ h4
    exact mem_replaceAll_of_mem '\n' [] [' '] '>' (by decide) _ h5

/-- Witness for claim C10 at concrete segments containing the nested
escapes. -/
theorem C10_double_decode_w :
    containsSub "&amp;lt;".toList "x&amp;lt;y".toList = true ∧
    '<' ∈ decodeSegment "x&amp;lt;y".toList ∧
    containsSub "&amp;gt;".toList "&amp;gt;".toList = true ∧
    '>' ∈ decodeSegment "&amp;gt;".toList :=
  ⟨by decide, C10_double_decode.1 "x&amp;lt;y".toList (by decide), by decide,
   C10_double_decode.2.1 "&amp;gt;".toList (by decide)⟩

/-! Behaviour of the extraction on well-formed caption documents. -/

theorem findNext_mkDoc (footer attr seg : List Char)
    (rest : List (List Char × List Char))
    (hattr : ∀ c ∈ attr, c ≠ '>') (hseg : ∀ c ∈ seg, c ≠ '<') :
    findNext (mkDoc footer ((attr, seg) :: rest)) = some (seg, mkDoc footer rest) := by
  have h1 : splitFirst openPat (mkDoc footer ((attr, seg) :: rest)) =
      some ([], attr ++ ('>' :: (seg ++ (closePat ++ mkDoc footer rest)))) := by
    rw [mkDoc]
    exact splitFirst_self '<' "text".toList _
  have h2 : (attr ++ ('>' :: (seg ++ (closePat ++ mkDoc footer rest)))).dropWhile
      (fun c => !(c == '>')) = '>' :: (seg ++ (closePat ++ mkDoc footer rest)) :=
    dropWhile_through '>' _ attr hattr
  have h3 : splitFirst closePat (seg ++ (closePat ++ mkDoc footer rest)) =
      some (seg, mkDoc footer rest) :=
    splitFirst_clean '<' "/text>".toList (mkDoc footer rest) seg hseg
  simp only [findNext, h1, h2, beq_self_eq_true, if_true, h3]

theorem extract_mkDoc (footer : List Char) (hfoot : containsSub openPat footer = false) :
    ∀ items : List (List Char × List Char),
      (∀ p ∈ items, (∀ c ∈ p.1, c ≠ '>') ∧ (∀ c ∈ p.2, c ≠ '<')) →
      extractTexts (mkDoc footer items) = items.map Prod.snd := by
  intro items
  induction items with
  | nil =>
    intro _
    have hsf : splitFirst openPat footer = none :=
      splitFirst_none_of_not_contains openPat footer hfoot
    have hfn : findNext footer = none := by simp only [findNext, hsf]
    exact extractTexts_none footer hfn
  | cons it rest ih =>
    intro h
    obtain ⟨attr, seg⟩ := it
    have hh := h (attr, seg) (List.mem_cons_self _ _)
    have hfn := findNext_mkDoc footer attr seg rest hh.1 hh.2
    rw [extractTexts_cons _ _ _ hfn, ih (fun p hp => h p (List.mem_cons_of_mem _ hp))]
    rfl

theorem decodeSegment_clean (s : List Char) (hamp : '&' ∉ s) :
    decodeSegment s = s.map (fun c => if '\n' == c then ' ' else c) := by
  show replaceAll ['\n'] [' ']
      (replaceAll ('&' :: "#39;".toList) aposRep
        (replaceAll ('&' :: "quot;".toList) ['"']
          (replaceAll ('&' :: "gt;".toList) ['>']
            (replaceAll ('&' :: "lt;".toList) ['<']
              (replaceAll ('&' :: "amp;".toList) ['&'] s))))) = _
  rw [replaceAll_id_of_head_notin '&' "amp;".toList ['&'] s hamp,
    replaceAll_id_of_head_notin '&' "lt;".toList ['<'] s hamp,
    replaceAll_id_of_head_notin '&' "gt;".toList ['>'] s hamp,
    replaceAll_id_of_head_notin '&' "quot;".toList ['"'] s hamp,
    replaceAll_id_of_head_notin '&' "#39;".toList aposRep s hamp]
  exact replaceAll_single '\n' ' ' s

/-- Counterexample to claim C1 as stated: a caption document whose
single text element contains the less-than escape parses to a
transcript that contains a literal opening angle bracket. -/
theorem C1_cex :
    parseTranscript "<text>&lt;</text>".toList = "<".toList ∧
    '<' ∈ parseTranscript "<text>&lt;</text>".toList :=
  ⟨by decide, by decide⟩

/-- Claim C1 (amended): for every caption document consisting of N
adjacent text elements (attributes free of closing angle brackets,
contents free of opening angle brackets) followed by a footer free of
text-element openings, the parsed transcript is exactly the N decoded
element contents joined with single spaces; when moreover the element
contents contain no angle brackets and no ampersands, the transcript
contains no angle brackets and no ampersands, hence no entity
escapes.  Decoded escapes may reintroduce literal brackets, as the
counterexample shows. -/
theorem C1_parse_amended (footer : List Char)
    (hfoot : containsSub openPat footer = false)
    (items : List (List Char × List Char))
    (hItems : ∀ p ∈ items, (∀ c ∈ p.1, c ≠ '>') ∧ (∀ c ∈ p.2, c ≠ '<')) :
    (extractTexts (mkDoc footer items)).length = items.length ∧
    parseTranscript (mkDoc footer items) =
      joinSep ' ' ((items.map Prod.snd).map decodeSegment) ∧
    ((∀ p ∈ items, ∀ c ∈ p.2, c ≠ '<' ∧ c ≠ '>' ∧ c ≠ '&') →
      ∀ c ∈ parseTranscript (mkDoc footer items), c ≠ '<' ∧ c ≠ '>' ∧ c ≠ '&') := by
  have hext : extractTexts (mkDoc footer items) = items.map Prod.snd :=
    extract_mkDoc footer hfoot items hItems
  refine ⟨by rw [hext]; simp, by rw [parseTranscript, hext], ?_⟩
  intro hclean c hc
  rw [parseTranscript, hext] at hc
  rcases mem_joinSep ' ' _ c hc with rfl | ⟨part, hp, hcp⟩
  · exact ⟨by decide, by decide, by decide⟩
  · rcases List.mem_map.1 hp with ⟨seg, hsegmem, rfl⟩
    rcases List.mem_map.1 hsegmem with ⟨pr, hprmem, rfl⟩
    have hcl := hclean pr hprmem
    have hamp : '&' ∉ pr.2 := fun hm => (hcl '&' hm).2.2 rfl
    rw [decodeSegment_clean pr.2 hamp] at hcp
    rcases List.mem_map.1 hcp with ⟨d, hd, hde⟩
    by_cases hdn : ('\n' == d) = true
    · rw [if_pos hdn] at hde
      cases hde
      exact ⟨by decide, by decide, by decide⟩
    · rw [if_neg hdn] at hde
      cases hde
      exact hcl _ hd

/-- Witness for claim C1's amended statement at a concrete
two-element document with the usual footer. -/
theorem C1_parse_amended_w :
    containsSub openPat "</transcript>".toList = false ∧
    (extractTexts (mkDoc "</transcript>".toList
      [([], "ab".toList), ([], "cd".toList)])).length =
      ([([], "ab".toList), ([], "cd".toList)] : List (List Char × List Char)).length ∧
    parseTranscript (mkDoc "</transcript>".toList
      [([], "ab".toList), ([], "cd".toList)]) =
      joinSep ' '
        ((([([], "ab".toList), ([], "cd".toList)] :
            List (List Char × List Char)).map Prod.snd).map decodeSegment) :=
  ⟨by decide,
   (C1_parse_amended "</transcript>".toList (by decide) _ (by decide)).1,
   (C1_parse_amended "</transcript>".toList (by decide) _ (by decide)).2.1⟩

end YT2
